import Mathlib

/-!
Verification of the GHRSST opensearch notebook client
(`format_opensearch_result` and the pagination loop of `search`).

Python dicts are modelled as association lists in insertion order
(`List (String × α)`); JSON values occurring in the client are modelled
by `Val` (null, strings, and lists of link objects).  Operations that
can raise (`KeyError`, `TypeError`, `AttributeError`) return `Except`.
-/

set_option autoImplicit false

namespace Opensearx

/-- A JSON-ish value as handled by the notebook: `None`, a string, or a
list of link objects (each link object being a dict of values). -/
inductive Val : Type where
  | null : Val
  | str : String → Val
  | arr : List (List (String × Val)) → Val

/-- A Python dict in insertion order. -/
abbrev Obj := List (String × Val)

/-- Python `x is None` (constructor test against `None`). -/
def Val.isNull : Val → Bool
  | .null => true
  | _ => false

/-- Python `d[k]` as an option: first value stored under key `k`. -/
def alGet? {α : Type} : List (String × α) → String → Option α
  | [], _ => none
  | (k0, v0) :: rest, k => if k0 = k then some v0 else alGet? rest k

/-- Python `d[k] = v`: replace in place if the key exists, else append. -/
def alSet {α : Type} : List (String × α) → String → α → List (String × α)
  | [], k, v => [(k, v)]
  | (k0, v0) :: rest, k, v =>
    if k0 = k then (k0, v) :: rest else (k0, v0) :: alSet rest k v

/-- Python `d.pop(k)`: remove the (first) binding of key `k`. -/
def alPop {α : Type} : List (String × α) → String → List (String × α)
  | [], _ => []
  | (k0, v0) :: rest, k => if k0 = k then rest else (k0, v0) :: alPop rest k

/-- The keys of a dict, in insertion order (Python `for k in d`). -/
def alKeys {α : Type} (l : List (String × α)) : List String :=
  l.map Prod.fst

/-- Python `s.endswith(t)`: `t` is a suffix of `s`. -/
def strEndsWith (s t : String) : Bool :=
  t.data.isSuffixOf s.data

/-- The identifier normalization of `format_opensearch_result`:
`if not file_id.endswith('.nc'): file_id = file_id + '.nc'`. -/
def normId (t : String) : String :=
  if strEndsWith t ".nc" then t else t ++ ".nc"

/-- The per-entry preprocessing of `format_opensearch_result`:
read `entry['title']`, tag every link with `entry['source']`, pop
`'source'`, and compute the normalized file identifier. -/
def processEntry (e : Obj) : Except String (String × Obj) :=
  match alGet? e "title" with
  | none => .error "KeyError: title"
  | some titleVal =>
    match alGet? e "links" with
    | none => .error "KeyError: links"
    | some (Val.arr ls) =>
      match alGet? e "source" with
      | none => .error "KeyError: source"
      | some src =>
        let tagged := ls.map (fun l => alSet l "source" src)
        let e1 := alPop (alSet e "links" (Val.arr tagged)) "source"
        match titleVal with
        | Val.str t => .ok (normId t, e1)
        | _ => .error "AttributeError: endswith"
    | some _ => .error "TypeError: links is not a list"

/-- The attribute loop of the merge branch:
`for attr in stored: if entry[attr] is not None and attr != 'links':
stored[attr] = entry[attr]`. -/
def mergeLoop (e : Obj) : List String → Obj → Except String Obj
  | [], acc => .ok acc
  | attr :: rest, acc =>
    match alGet? e attr with
    | none => .error "KeyError: attr"
    | some v =>
      let acc1 := if v.isNull = false ∧ attr ≠ "links" then alSet acc attr v else acc
      mergeLoop e rest acc1

/-- The merge branch of `format_opensearch_result`: extend the stored
record's link list with the new entry's links, then run the attribute
overwrite loop over the stored record's keys. -/
def mergeInto (stored e : Obj) : Except String Obj :=
  match alGet? stored "links" with
  | some (Val.arr sl) =>
    match alGet? e "links" with
    | some (Val.arr el) =>
      let stored1 := alSet stored "links" (Val.arr (sl ++ el))
      mergeLoop e (alKeys stored1) stored1
    | some _ => .error "TypeError: extend argument"
    | none => .error "KeyError: links of entry"
  | some _ => .error "AttributeError: extend"
  | none => .error "KeyError: links of stored"

/-- One iteration of the `for entry in entries` loop of
`format_opensearch_result` over the accumulated dict. -/
def insertStep (d : List (String × Obj)) (e : Obj) : Except String (List (String × Obj)) :=
  match processEntry e with
  | .error m => .error m
  | .ok (fid, e1) =>
    match alGet? d fid with
    | some stored =>
      match mergeInto stored e1 with
      | .error m => .error m
      | .ok r => .ok (alSet d fid r)
    | none => .ok (d ++ [(fid, e1)])

/-- Codepoint-lexicographic strict comparison of character sequences,
as Python compares strings. -/
def charListLt : List Char → List Char → Bool
  | _, [] => false
  | [], _ :: _ => true
  | a :: as, b :: bs =>
    if a.toNat < b.toNat then true
    else if b.toNat < a.toNat then false
    else charListLt as bs

/-- Codepoint-lexicographic non-strict comparison of character
sequences, as used by Python `sorted` on strings. -/
def charListLe : List Char → List Char → Bool
  | [], _ => true
  | _ :: _, [] => false
  | a :: as, b :: bs =>
    if a.toNat < b.toNat then true
    else if b.toNat < a.toNat then false
    else charListLe as bs

/-- Python `a < b` on strings (codepoint lexicographic). -/
def strLt (a b : String) : Bool := charListLt a.data b.data

/-- Python `a <= b` on strings (codepoint lexicographic). -/
def strLe (a b : String) : Bool := charListLe a.data b.data

/-- Python `sorted` over the dict's pairs by key (keys are unique, so
sorting the pairs by key equals rebuilding from sorted keys). -/
def sortRecs (d : List (String × Obj)) : List (String × Obj) :=
  List.insertionSort (fun a b => strLe a.1 b.1 = true) d

/-- `format_opensearch_result`: fold all entries into the dict of
canonical records, then return it sorted by filename. -/
def format_opensearch_result (entries : List Obj) : Except String (List (String × Obj)) :=
  match entries.foldlM insertStep [] with
  | .error m => .error m
  | .ok d => .ok (sortRecs d)

/-- One decoded result page header plus its entries
(`json_result['header']`, `json_result['entries']`). -/
structure Page where
  total_results : Int
  start_index : Int
  items_per_page : Int
  entries : List Obj

/-- The continuation check of `search`:
`status['total_results'] < (status['start_index']+1)*status['items_per_page']`. -/
def lastPageReached (p : Page) : Bool :=
  p.total_results < (p.start_index + 1) * p.items_per_page

/-- The `while not last_page` loop of `search`, with explicit fuel to
model potential divergence (`none` = the loop has not finished within
`fuel` iterations).  `visited` records which page indices were
requested; `acc` is the `results` accumulator. -/
def fetchAll (server : Nat → Page) : Nat → Nat → List Nat → List Obj → Option (List Nat × List Obj)
  | 0, _, _, _ => none
  | fuel + 1, page, visited, acc =>
    let p := server page
    let visited1 := visited ++ [page]
    let acc1 := acc ++ p.entries
    if lastPageReached p then some (visited1, acc1)
    else fetchAll server fuel (page + 1) visited1 acc1

/-- A synthetic server reporting `total_results = 250`,
`items_per_page = 100` on every page. -/
def server250 : Nat → Page :=
  fun i => { total_results := 250, start_index := (i : Int), items_per_page := 100, entries := [] }

/-- A synthetic server reporting `items_per_page = 0` and
`total_results = 5` on every page. -/
def zeroServer : Nat → Page :=
  fun i => { total_results := 5, start_index := (i : Int), items_per_page := 0, entries := [] }

end Opensearx

/-! ### Dictionary lemmas -/

namespace Opensearx

variable {α : Type}

theorem alGet?_isSome_iff (l : List (String × α)) (k : String) :
    (alGet? l k).isSome = true ↔ k ∈ alKeys l := by
  induction l with
  | nil => simp [alGet?, alKeys]
  | cons p rest ih =>
    obtain ⟨k0, v0⟩ := p
    by_cases h : k0 = k
    · subst h; simp [alGet?, alKeys]
    · simp [alGet?, alKeys, h, Ne.symm h] at ih ⊢
      exact ih

theorem alGet?_eq_none_iff (l : List (String × α)) (k : String) :
    alGet? l k = none ↔ k ∉ alKeys l := by
  rw [← alGet?_isSome_iff]
  cases alGet? l k <;> simp

theorem alGet?_alSet_self (l : List (String × α)) (k : String) (v : α) :
    alGet? (alSet l k v) k = some v := by
  induction l with
  | nil => simp [alSet, alGet?]
  | cons p rest ih =>
    obtain ⟨k0, v0⟩ := p
    by_cases h : k0 = k
    · simp [alSet, alGet?, h]
    · simp [alSet, alGet?, h, ih]

theorem alGet?_alSet_ne (l : List (String × α)) (k k2 : String) (v : α) (h : k ≠ k2) :
    alGet? (alSet l k2 v) k = alGet? l k := by
  induction l with
  | nil => simp [alSet, alGet?, Ne.symm h]
  | cons p rest ih =>
    obtain ⟨k0, v0⟩ := p
    by_cases h0 : k0 = k2
    · subst h0; simp [alSet, alGet?, Ne.symm h]
    · simp [alSet, alGet?, h0, ih]

theorem alGet?_alPop_ne (l : List (String × α)) (k k2 : String) (h : k ≠ k2) :
    alGet? (alPop l k2) k = alGet? l k := by
  induction l with
  | nil => simp [alPop]
  | cons p rest ih =>
    obtain ⟨k0, v0⟩ := p
    by_cases h0 : k0 = k2
    · subst h0; simp [alPop, alGet?, Ne.symm h]
    · simp [alPop, alGet?, h0, ih]

theorem alKeys_nil : alKeys ([] : List (String × α)) = [] := rfl

theorem alKeys_cons (p : String × α) (l : List (String × α)) :
    alKeys (p :: l) = p.1 :: alKeys l := rfl

theorem alKeys_append (l m : List (String × α)) :
    alKeys (l ++ m) = alKeys l ++ alKeys m := by
  simp [alKeys]

theorem alKeys_alSet_of_mem (l : List (String × α)) (k : String) (v : α)
    (h : k ∈ alKeys l) : alKeys (alSet l k v) = alKeys l := by
  induction l with
  | nil => simp [alKeys] at h
  | cons p rest ih =>
    obtain ⟨k0, v0⟩ := p
    by_cases h0 : k0 = k
    · simp [alSet, h0, alKeys]
    · rw [alKeys_cons] at h
      rcases List.mem_cons.mp h with h1 | h1
      · exact absurd h1.symm h0
      · simp [alSet, h0, alKeys_cons, ih h1]

theorem alKeys_alSet_of_not_mem (l : List (String × α)) (k : String) (v : α)
    (h : k ∉ alKeys l) : alKeys (alSet l k v) = alKeys l ++ [k] := by
  induction l with
  | nil => simp [alSet, alKeys]
  | cons p rest ih =>
    obtain ⟨k0, v0⟩ := p
    simp [alKeys_cons] at h
    push_neg at h
    simp [alSet, Ne.symm h.1, alKeys_cons, ih h.2]

theorem alKeys_alPop (l : List (String × α)) (k : String) :
    alKeys (alPop l k) = (alKeys l).erase k := by
  induction l with
  | nil => simp [alPop, alKeys]
  | cons p rest ih =>
    obtain ⟨k0, v0⟩ := p
    by_cases h0 : k0 = k
    · subst h0; simp [alPop, alKeys_cons, List.erase_cons]
    · simp [alPop, h0, alKeys_cons, List.erase_cons, ih]

theorem mem_alGet? {l : List (String × α)} {k : String} {v : α}
    (hnd : (alKeys l).Nodup) (h : (k, v) ∈ l) : alGet? l k = some v := by
  induction l with
  | nil => simp at h
  | cons p rest ih =>
    obtain ⟨k0, v0⟩ := p
    rw [alKeys_cons, List.nodup_cons] at hnd
    rcases List.mem_cons.mp h with h1 | h1
    · rw [Prod.mk.injEq] at h1
      obtain ⟨hk, hv⟩ := h1
      subst hk; subst hv
      simp [alGet?]
    · have hk : k0 ≠ k := by
        intro he
        subst he
        exact hnd.1 (List.mem_map.mpr ⟨(k0, v), h1, rfl⟩)
      rw [show alGet? ((k0, v0) :: rest) k = alGet? rest k by simp [alGet?, hk]]
      exact ih hnd.2 h1

end Opensearx

/-! ### Lemmas about the merge loop and entry preprocessing -/

namespace Opensearx

theorem strEndsWith_append (s t : String) : strEndsWith (s ++ t) t = true := by
  unfold strEndsWith
  rw [String.data_append]
  exact List.isSuffixOf_iff_suffix.mpr (List.suffix_append _ _)

theorem normId_of_not_nc {t : String} (h : strEndsWith t ".nc" = false) :
    normId t = t ++ ".nc" := by
  simp [normId, h]

theorem normId_of_nc {t : String} (h : strEndsWith t ".nc" = true) :
    normId t = t := by
  simp [normId, h]

theorem normId_append_nc (t : String) : normId (t ++ ".nc") = t ++ ".nc" :=
  normId_of_nc (strEndsWith_append t ".nc")

theorem mergeLoop_ok (e : Obj) (ks : List String) (acc : Obj)
    (h : ∀ a ∈ ks, (alGet? e a).isSome = true) :
    ∃ r, mergeLoop e ks acc = .ok r := by
  induction ks generalizing acc with
  | nil => exact ⟨acc, rfl⟩
  | cons a rest ih =>
    obtain ⟨v, hv⟩ := Option.isSome_iff_exists.mp (h a (List.mem_cons_self a rest))
    simp only [mergeLoop, hv]
    exact ih _ (fun x hx => h x (List.mem_cons_of_mem _ hx))

theorem mergeLoop_get_links {e : Obj} {ks : List String} {acc r : Obj}
    (h : mergeLoop e ks acc = .ok r) : alGet? r "links" = alGet? acc "links" := by
  induction ks generalizing acc with
  | nil =>
    simp only [mergeLoop, Except.ok.injEq] at h
    rw [h]
  | cons a rest ih =>
    cases hv : alGet? e a with
    | none => simp only [mergeLoop, hv] at h; exact absurd h (by simp)
    | some v =>
      simp only [mergeLoop, hv] at h
      rw [ih h]
      by_cases hg : v.isNull = false ∧ a ≠ "links"
      · rw [if_pos hg, alGet?_alSet_ne _ _ _ _ (Ne.symm hg.2)]
      · rw [if_neg hg]

theorem mergeLoop_get_not_mem {e : Obj} {ks : List String} {acc r : Obj}
    (h : mergeLoop e ks acc = .ok r) {attr : String} (hattr : attr ∉ ks) :
    alGet? r attr = alGet? acc attr := by
  induction ks generalizing acc with
  | nil =>
    simp only [mergeLoop, Except.ok.injEq] at h
    rw [h]
  | cons a rest ih =>
    cases hv : alGet? e a with
    | none => simp only [mergeLoop, hv] at h; exact absurd h (by simp)
    | some v =>
      simp only [mergeLoop, hv] at h
      have hne : attr ≠ a := fun he => hattr (he ▸ List.mem_cons_self a rest)
      rw [ih h (fun hm => hattr (List.mem_cons_of_mem _ hm))]
      by_cases hg : v.isNull = false ∧ a ≠ "links"
      · rw [if_pos hg, alGet?_alSet_ne _ _ _ _ hne]
      · rw [if_neg hg]

theorem mergeLoop_get_mem {e : Obj} {ks : List String} {acc r : Obj}
    (hnd : ks.Nodup) (h : mergeLoop e ks acc = .ok r)
    {attr : String} (hattr : attr ∈ ks) (hne : attr ≠ "links")
    {v : Val} (hv : alGet? e attr = some v) :
    alGet? r attr = if v.isNull = false then some v else alGet? acc attr := by
  induction ks generalizing acc with
  | nil => simp at hattr
  | cons a rest ih =>
    rw [List.nodup_cons] at hnd
    by_cases ha : attr = a
    · subst ha
      simp only [mergeLoop, hv] at h
      have hout := mergeLoop_get_not_mem h hnd.1
      rw [hout]
      by_cases hn : v.isNull = false
      · rw [if_pos hn, if_pos ⟨hn, hne⟩, alGet?_alSet_self]
      · rw [if_neg hn, if_neg (fun hc => hn hc.1)]
    · cases hw : alGet? e a with
      | none => simp only [mergeLoop, hw] at h; exact absurd h (by simp)
      | some w =>
        simp only [mergeLoop, hw] at h
        have hmem : attr ∈ rest := by
          rcases List.mem_cons.mp hattr with h1 | h1
          · exact absurd h1 ha
          · exact h1
        rw [ih hnd.2 h hmem]
        by_cases hg : w.isNull = false ∧ a ≠ "links"
        · rw [if_pos hg, alGet?_alSet_ne _ _ _ _ ha]
        · rw [if_neg hg]

theorem mergeLoop_keys {e : Obj} {ks : List String} {acc r : Obj}
    (h : mergeLoop e ks acc = .ok r) (hks : ∀ a ∈ ks, a ∈ alKeys acc) :
    alKeys r = alKeys acc := by
  induction ks generalizing acc with
  | nil =>
    simp only [mergeLoop, Except.ok.injEq] at h
    rw [h]
  | cons a rest ih =>
    cases hv : alGet? e a with
    | none => simp only [mergeLoop, hv] at h; exact absurd h (by simp)
    | some v =>
      simp only [mergeLoop, hv] at h
      by_cases hg : v.isNull = false ∧ a ≠ "links"
      · rw [if_pos hg] at h
        have hk : alKeys (alSet acc a v) = alKeys acc :=
          alKeys_alSet_of_mem _ _ _ (hks a (List.mem_cons_self a rest))
        rw [ih h (fun x hx => hk ▸ hks x (List.mem_cons_of_mem _ hx)), hk]
      · rw [if_neg hg] at h
        exact ih h (fun x hx => hks x (List.mem_cons_of_mem _ hx))

theorem processEntry_eq {e : Obj} {t : String} {ls : List Obj} {src : Val}
    (ht : alGet? e "title" = some (.str t))
    (hl : alGet? e "links" = some (.arr ls))
    (hs : alGet? e "source" = some src) :
    processEntry e =
      .ok (normId t,
        alPop (alSet e "links" (Val.arr (ls.map (fun l => alSet l "source" src)))) "source") := by
  unfold processEntry
  rw [ht, hl, hs]

theorem processEntry_inv {e e1 : Obj} {k : String}
    (h : processEntry e = .ok (k, e1)) :
    ∃ t ls src,
      alGet? e "title" = some (.str t) ∧
      alGet? e "links" = some (.arr ls) ∧
      alGet? e "source" = some src ∧
      k = normId t ∧
      e1 = alPop (alSet e "links" (Val.arr (ls.map (fun l => alSet l "source" src)))) "source" := by
  unfold processEntry at h
  cases h1 : alGet? e "title" with
  | none => rw [h1] at h; simp at h
  | some tv =>
    rw [h1] at h
    cases h2 : alGet? e "links" with
    | none => rw [h2] at h; simp at h
    | some lv =>
      rw [h2] at h
      cases lv with
      | null => simp at h
      | str s => simp at h
      | arr ls =>
        cases h3 : alGet? e "source" with
        | none => rw [h3] at h; simp at h
        | some src =>
          rw [h3] at h
          cases tv with
          | null => simp at h
          | arr ls2 => simp at h
          | str t =>
            simp only [Except.ok.injEq, Prod.mk.injEq] at h
            exact ⟨t, ls, src, rfl, rfl, rfl, h.1.symm, h.2.symm⟩

end Opensearx

/-! ### Claims about the pagination loop -/

namespace Opensearx

/-- C1: the fetcher stops requesting further pages exactly when the
page header satisfies `total_results < (start_index + 1) * items_per_page`
(first conjunct: each loop iteration returns right after the current page
iff that formula holds there, and otherwise requests page `page + 1`);
for a synthetic server reporting `total_results = 250` and
`items_per_page = 100` on every page, the pages with start index 0, 1, 2
are fetched and no page after index 2 is requested (second conjunct,
for every sufficient fuel bound). -/
theorem pagination_stops_iff_formula :
    (∀ (server : Nat → Page) (fuel page : Nat) (visited : List Nat) (acc : List Obj),
      fetchAll server (fuel + 1) page visited acc =
        if lastPageReached (server page)
        then some (visited ++ [page], acc ++ (server page).entries)
        else fetchAll server fuel (page + 1) (visited ++ [page]) (acc ++ (server page).entries))
    ∧ (∀ fuel, 3 ≤ fuel →
        (fetchAll server250 fuel 0 [] []).map Prod.fst = some [0, 1, 2]) := by
  constructor
  · intro server fuel page visited acc
    rfl
  · intro fuel hfuel
    obtain ⟨n, rfl⟩ := Nat.exists_eq_add_of_le hfuel
    have h3 : 3 + n = n + 1 + 1 + 1 := by omega
    rw [h3]
    norm_num [fetchAll, lastPageReached, server250]

/-- Witness for C1 at the concrete fuel bound 3. -/
theorem pagination_stops_iff_formula_witness :
    (fetchAll server250 3 0 [] []).map Prod.fst = some [0, 1, 2] :=
  pagination_stops_iff_formula.2 3 (by decide)

/-- C2 (refuted by the code): on a page reporting `items_per_page = 0`
and `total_results = 5 ≥ 0` the continuation formula
`total_results < (start_index + 1) * 0` is false, so the loop does not
terminate after that page: against a server reporting such headers on
every page, the loop never returns for any amount of fuel. -/
theorem zero_items_per_page_loops_forever :
    (∀ page, lastPageReached (zeroServer page) = false) ∧
    (∀ fuel page visited acc, fetchAll zeroServer fuel page visited acc = none) := by
  have hlast : ∀ page, lastPageReached (zeroServer page) = false := by
    intro page
    simp [lastPageReached, zeroServer]
  refine ⟨hlast, ?_⟩
  intro fuel
  induction fuel with
  | zero => intro page visited acc; rfl
  | succ n ih =>
    intro page visited acc
    simp only [fetchAll, hlast page, Bool.false_eq_true, if_false]
    exact ih (page + 1) _ _

end Opensearx

/-! ### Further facts about processed entries -/

namespace Opensearx

variable {α : Type}

theorem alGet?_append_of_some {l m : List (String × α)} {k : String} {v : α}
    (h : alGet? l k = some v) : alGet? (l ++ m) k = some v := by
  induction l with
  | nil => simp [alGet?] at h
  | cons p rest ih =>
    obtain ⟨k0, v0⟩ := p
    by_cases h0 : k0 = k
    · simp_all [alGet?]
    · simp only [alGet?, h0, if_neg h0] at h ⊢
      exact ih h

theorem alGet?_append_of_none {l m : List (String × α)} {k : String}
    (h : alGet? l k = none) : alGet? (l ++ m) k = alGet? m k := by
  induction l with
  | nil => simp
  | cons p rest ih =>
    obtain ⟨k0, v0⟩ := p
    by_cases h0 : k0 = k
    · simp_all [alGet?]
    · simp only [alGet?, h0, if_neg h0] at h ⊢
      exact ih h

theorem processEntry_keys {e e1 : Obj} {k : String}
    (h : processEntry e = .ok (k, e1)) :
    alKeys e1 = (alKeys e).erase "source" := by
  obtain ⟨t, ls, src, ht, hl, hs, hk, he1⟩ := processEntry_inv h
  rw [he1, alKeys_alPop, alKeys_alSet_of_mem]
  exact (alGet?_isSome_iff e "links").mp (by rw [hl]; rfl)

theorem processEntry_links {e e1 : Obj} {k : String}
    (h : processEntry e = .ok (k, e1)) :
    ∃ ls, alGet? e1 "links" = some (Val.arr ls) := by
  obtain ⟨t, ls, src, ht, hl, hs, hk, he1⟩ := processEntry_inv h
  exact ⟨ls.map (fun l => alSet l "source" src), by
    rw [he1, alGet?_alPop_ne _ _ _ (by decide), alGet?_alSet_self]⟩

/-- A raw entry with one untagged link, used in concrete scenarios. -/
def egEntry (t : String) : Obj :=
  [("title", Val.str t), ("links", Val.arr [[("href", Val.str "u1")]]),
   ("source", Val.str "DAC1")]

/-- A raw entry whose single link already carries a `source` tag `"X"`
different from the entry-level `source` `"Y"`. -/
def egTaggedEntry : Obj :=
  [("title", Val.str "f1.nc"),
   ("links", Val.arr [[("href", Val.str "u1"), ("source", Val.str "X")]]),
   ("source", Val.str "Y")]

/-- The canonical record produced from `egTaggedEntry`. -/
def egTagged1 : Obj :=
  [("title", Val.str "f1.nc"),
   ("links", Val.arr [[("href", Val.str "u1"), ("source", Val.str "Y")]])]

end Opensearx

/-! ### Claims about identifier normalization and link tagging -/

namespace Opensearx

/-- C4: `format_opensearch_result` keys each entry by `entry['title']`
with `".nc"` appended exactly when the title does not already end in
`".nc"` (first conjunct, for every entry accepted by the
preprocessing); concretely, entries titled `"granuleXYZ"` and
`"granuleXYZ.nc"` in the same input normalize to the single key
`"granuleXYZ.nc"` and merge into one canonical record (second
conjunct). -/
theorem title_nc_suffix_normalization :
    (∀ (e : Obj) (t k : String) (e1 : Obj),
      alGet? e "title" = some (Val.str t) →
      processEntry e = .ok (k, e1) →
      k = normId t ∧
      (strEndsWith t ".nc" = false → k = t ++ ".nc" ∧ normId (t ++ ".nc") = t ++ ".nc") ∧
      (strEndsWith t ".nc" = true → k = t))
    ∧ format_opensearch_result [egEntry "granuleXYZ", egEntry "granuleXYZ.nc"] =
        .ok [("granuleXYZ.nc",
          [("title", Val.str "granuleXYZ.nc"),
           ("links", Val.arr [[("href", Val.str "u1"), ("source", Val.str "DAC1")],
                              [("href", Val.str "u1"), ("source", Val.str "DAC1")]])])] := by
  constructor
  · intro e t k e1 ht h
    obtain ⟨t2, ls, src, ht2, hl2, hs2, hk, he1⟩ := processEntry_inv h
    rw [ht] at ht2
    have htt : t = t2 := by
      injection ht2 with h3
      injection h3
    subst htt
    refine ⟨hk, fun hf => ⟨?_, normId_append_nc t⟩, fun htr => ?_⟩
    · rw [hk, normId_of_not_nc hf]
    · rw [hk, normId_of_nc htr]
  · rfl

/-- Witness for C4 at the concrete title `"granuleXYZ"`. -/
theorem title_nc_suffix_normalization_witness :
    ("granuleXYZ.nc" : String) = "granuleXYZ" ++ ".nc" ∧
    normId ("granuleXYZ" ++ ".nc") = "granuleXYZ" ++ ".nc" :=
  (title_nc_suffix_normalization.1 (egEntry "granuleXYZ") "granuleXYZ" "granuleXYZ.nc" _
    rfl rfl).2.1 rfl

/-- C6 (refuted by the code): a link that already carries a provider
tag does not keep it — `format_opensearch_result` overwrites the
existing `"X"` tag of the link with the entry-level `source` `"Y"`. -/
theorem link_existing_source_overwritten_cex :
    format_opensearch_result [egTaggedEntry] = .ok [("f1.nc", egTagged1)] ∧
    alGet? egTagged1 "links" =
      some (Val.arr [[("href", Val.str "u1"), ("source", Val.str "Y")]]) ∧
    Val.str "Y" ≠ Val.str "X" := by
  refine ⟨rfl, rfl, ?_⟩
  intro h
  injection h with h2
  exact absurd h2 (by decide)

/-- C6 (amended): `format_opensearch_result` unconditionally rewrites
the `source` tag of every link of an entry to the entry-level `source`
value, whether or not a tag was already present; in particular every
link of a processed entry carries the provider of its originating
entry. -/
theorem links_tagged_with_entry_source (e e1 : Obj) (k : String) (src : Val) (ls : List Obj)
    (h : processEntry e = .ok (k, e1))
    (hls : alGet? e "links" = some (Val.arr ls))
    (hsrc : alGet? e "source" = some src) :
    alGet? e1 "links" = some (Val.arr (ls.map (fun l => alSet l "source" src))) ∧
    ∀ l ∈ ls, alGet? (alSet l "source" src) "source" = some src := by
  obtain ⟨t, ls2, src2, ht2, hl2, hs2, hk, he1⟩ := processEntry_inv h
  rw [hls] at hl2
  rw [hsrc] at hs2
  have hls2 : ls2 = ls := by
    injection hl2 with h3
    injection h3 with h4
    exact h4.symm
  have hsrc2 : src2 = src := by
    injection hs2 with h3
    exact h3.symm
  rw [hls2, hsrc2] at he1
  constructor
  · rw [he1, alGet?_alPop_ne _ _ _ (by decide), alGet?_alSet_self]
  · intro l hl
    exact alGet?_alSet_self l "source" src

/-- Witness for the amended C6 at the concrete entry `egTaggedEntry`. -/
theorem links_tagged_with_entry_source_witness :
    alGet? egTagged1 "links" =
      some (Val.arr [[("href", Val.str "u1"), ("source", Val.str "Y")]]) ∧
    ∀ l ∈ [[("href", Val.str "u1"), ("source", Val.str "X")]],
      alGet? (alSet l "source" (Val.str "Y")) "source" = some (Val.str "Y") :=
  links_tagged_with_entry_source egTaggedEntry egTagged1 "f1.nc" (Val.str "Y")
    [[("href", Val.str "u1"), ("source", Val.str "X")]] rfl rfl rfl

end Opensearx

/-! ### Totality of the normalizer on uniformly-shaped entries -/

namespace Opensearx

/-- Well-formedness of a raw entry: key list `K`, a string title, a
list of links, and a `source` binding. -/
def EntryShape (K : List String) (e : Obj) : Prop :=
  alKeys e = K ∧
  (∃ t, alGet? e "title" = some (Val.str t)) ∧
  (∃ ls, alGet? e "links" = some (Val.arr ls)) ∧
  (∃ src, alGet? e "source" = some src)

/-- Invariant of the accumulated dict: every stored record has key list
`K.erase "source"` and a list under `"links"`. -/
def RecShape (K : List String) (d : List (String × Obj)) : Prop :=
  ∀ k r, alGet? d k = some r →
    alKeys r = K.erase "source" ∧ ∃ ls, alGet? r "links" = some (Val.arr ls)

theorem processEntry_shape {K : List String} {e : Obj} (he : EntryShape K e) :
    ∃ k e1, processEntry e = .ok (k, e1) ∧
      alKeys e1 = K.erase "source" ∧ ∃ ls, alGet? e1 "links" = some (Val.arr ls) := by
  obtain ⟨hK, ⟨t, ht⟩, ⟨ls, hl⟩, ⟨src, hs⟩⟩ := he
  have hpe := processEntry_eq ht hl hs
  refine ⟨_, _, hpe, ?_, processEntry_links hpe⟩
  rw [processEntry_keys hpe, hK]

theorem insertStep_shape {K : List String} {d : List (String × Obj)} {e : Obj}
    (he : EntryShape K e) (hd : RecShape K d) :
    ∃ d1, insertStep d e = .ok d1 ∧ RecShape K d1 := by
  obtain ⟨fid, e1, hpe, hkeys1, ⟨el, hel⟩⟩ := processEntry_shape he
  cases hf : alGet? d fid with
  | some stored =>
    obtain ⟨hkeyst, ⟨sl, hsl⟩⟩ := hd fid stored hf
    have hlinksmem : "links" ∈ alKeys stored :=
      (alGet?_isSome_iff stored "links").mp (by rw [hsl]; rfl)
    have hkeys2 : alKeys (alSet stored "links" (Val.arr (sl ++ el))) = alKeys stored :=
      alKeys_alSet_of_mem _ _ _ hlinksmem
    have hcov : ∀ a ∈ alKeys (alSet stored "links" (Val.arr (sl ++ el))),
        (alGet? e1 a).isSome = true := by
      intro a ha
      rw [hkeys2, hkeyst, ← hkeys1] at ha
      exact (alGet?_isSome_iff e1 a).mpr ha
    obtain ⟨r, hr⟩ := mergeLoop_ok e1 _ _ hcov
    have hmerge : mergeInto stored e1 = .ok r := by
      unfold mergeInto
      rw [hsl, hel]
      exact hr
    refine ⟨alSet d fid r, ?_, ?_⟩
    · simp only [insertStep, hpe, hf, hmerge]
    · intro k2 r2 h2
      by_cases hk2 : k2 = fid
      · subst hk2
        rw [alGet?_alSet_self] at h2
        injection h2 with h3
        rw [← h3]
        constructor
        · rw [mergeLoop_keys hr (fun a ha => ha), hkeys2, hkeyst]
        · refine ⟨sl ++ el, ?_⟩
          rw [mergeLoop_get_links hr, alGet?_alSet_self]
      · rw [alGet?_alSet_ne _ _ _ _ hk2] at h2
        exact hd k2 r2 h2
  | none =>
    refine ⟨d ++ [(fid, e1)], ?_, ?_⟩
    · simp only [insertStep, hpe, hf]
    · intro k2 r2 h2
      cases hget : alGet? d k2 with
      | some w =>
        rw [alGet?_append_of_some hget] at h2
        injection h2 with h3
        rw [← h3]
        exact hd k2 w hget
      | none =>
        rw [alGet?_append_of_none hget] at h2
        by_cases hk2 : fid = k2
        · subst hk2
          simp [alGet?] at h2
          subst h2
          exact ⟨hkeys1, el, hel⟩
        · simp [alGet?, hk2] at h2

theorem fold_insert_ok {K : List String} (es : List Obj) :
    ∀ d : List (String × Obj),
      (∀ e ∈ es, EntryShape K e) → RecShape K d →
      ∃ d2, List.foldlM insertStep d es = .ok d2 ∧ RecShape K d2 := by
  induction es with
  | nil => intro d _ hd; exact ⟨d, rfl, hd⟩
  | cons e rest ih =>
    intro d hes hd
    obtain ⟨d1, hd1, hshape1⟩ := insertStep_shape (hes e (List.mem_cons_self e rest)) hd
    obtain ⟨d2, hd2, hshape2⟩ := ih d1 (fun x hx => hes x (List.mem_cons_of_mem _ hx)) hshape1
    refine ⟨d2, ?_, hshape2⟩
    rw [List.foldlM_cons, hd1]
    exact hd2

/-- C7 (amended): `format_opensearch_result` is total over sequences of
well-formed entries that share one attribute key list containing
`title` (a string), `links` (a list) and `source`; attribute values may
be null.  (The unamended claim — totality even for entries with
missing keys or differing key sets — fails: a missing key raises
`KeyError`.) -/
theorem normalize_total_on_uniform_keys (es : List Obj) (K : List String)
    (hes : ∀ e ∈ es, EntryShape K e) :
    ∃ out, format_opensearch_result es = .ok out := by
  obtain ⟨d2, hfold, _⟩ := fold_insert_ok es [] hes (fun k r h => by simp [alGet?] at h)
  refine ⟨sortRecs d2, ?_⟩
  unfold format_opensearch_result
  rw [hfold]

/-- Witness for the amended C7: two same-identifier entries with equal
key sets (and one entry with null attribute) normalize without error. -/
theorem normalize_total_on_uniform_keys_witness :
    ∃ out, format_opensearch_result [egEntry "a.nc", egEntry "a.nc"] = .ok out := by
  refine normalize_total_on_uniform_keys _ ["title", "links", "source"] ?_
  intro e he
  rcases List.mem_cons.mp he with rfl | he2
  · exact ⟨rfl, ⟨_, rfl⟩, ⟨_, rfl⟩, ⟨_, rfl⟩⟩
  · rcases List.mem_cons.mp he2 with rfl | he3
    · exact ⟨rfl, ⟨_, rfl⟩, ⟨_, rfl⟩, ⟨_, rfl⟩⟩
    · simp at he3

/-- An entry lacking the `source` key. -/
def egNoSource : Obj :=
  [("title", Val.str "f1.nc"), ("links", Val.arr [[("href", Val.str "u1")]])]

/-- C7 (refuted by the code): the normalizer is not total — an entry
without a `source` key raises `KeyError` (`entry.pop('source')`), even
though the spec calls `provider` an optional attribute. -/
theorem normalize_missing_source_errors_cex :
    format_opensearch_result [egNoSource] = .error "KeyError: source" := rfl

end Opensearx

/-! ### Per-attribute merge policy -/

namespace Opensearx

/-- Entry A of the null-never-clobbers scenario: `summary = "foo"`. -/
def egA : Obj :=
  [("title", Val.str "f1.nc"), ("links", Val.arr [[("href", Val.str "u1")]]),
   ("source", Val.str "P1"), ("summary", Val.str "foo")]

/-- Entry B of the null-never-clobbers scenario: same identifier,
`summary = null`. -/
def egB : Obj :=
  [("title", Val.str "f1.nc"), ("links", Val.arr [[("href", Val.str "u2")]]),
   ("source", Val.str "P2"), ("summary", Val.null)]

/-- C3: processing two raw entries with the same normalized identifier
in order A then B, every attribute key of the stored record other than
`links` ends up with B's value if that value is non-null and with A's
(the stored) value if B's value is null — per attribute, not as a
whole-record replacement. -/
theorem merge_per_attribute_last_nonnull_wins
    (A B a1 b1 : Obj) (k : String)
    (hA : processEntry A = .ok (k, a1))
    (hB : processEntry B = .ok (k, b1))
    (hnd : (alKeys a1).Nodup)
    (hcov : ∀ x ∈ alKeys a1, (alGet? b1 x).isSome = true)
    (attr : String) (hattr : attr ∈ alKeys a1) (hne : attr ≠ "links")
    (v : Val) (hv : alGet? b1 attr = some v) :
    ∃ r, format_opensearch_result [A, B] = .ok [(k, r)] ∧
      alGet? r attr = (if v.isNull = false then some v else alGet? a1 attr) := by
  obtain ⟨sl, hsl⟩ := processEntry_links hA
  obtain ⟨el, hel⟩ := processEntry_links hB
  have hlinksmem : "links" ∈ alKeys a1 :=
    (alGet?_isSome_iff a1 "links").mp (by rw [hsl]; rfl)
  have hkeys2 : alKeys (alSet a1 "links" (Val.arr (sl ++ el))) = alKeys a1 :=
    alKeys_alSet_of_mem _ _ _ hlinksmem
  have hcov2 : ∀ a ∈ alKeys (alSet a1 "links" (Val.arr (sl ++ el))),
      (alGet? b1 a).isSome = true := by
    intro a ha
    exact hcov a (hkeys2 ▸ ha)
  obtain ⟨r, hr⟩ := mergeLoop_ok b1 _ _ hcov2
  have hmerge : mergeInto a1 b1 = .ok r := by
    unfold mergeInto
    rw [hsl, hel]
    exact hr
  have hstep1 : insertStep [] A = .ok [(k, a1)] := by
    simp only [insertStep, hA, alGet?, List.nil_append]
  have hstep2 : insertStep [(k, a1)] B = .ok [(k, r)] := by
    simp only [insertStep, hB, hmerge,
      show alGet? [(k, a1)] k = some a1 from by simp [alGet?],
      show alSet [(k, a1)] k r = [(k, r)] from by simp [alSet]]
  have hfold : List.foldlM insertStep ([] : List (String × Obj)) [A, B] = .ok [(k, r)] := by
    rw [List.foldlM_cons, hstep1]
    show List.foldlM insertStep [(k, a1)] [B] = .ok [(k, r)]
    rw [List.foldlM_cons, hstep2]
    rfl
  refine ⟨r, ?_, ?_⟩
  · simp only [format_opensearch_result, hfold]
    rfl
  · have hget := mergeLoop_get_mem (hkeys2.symm ▸ hnd) hr (hkeys2.symm ▸ hattr) hne hv
    rw [hget]
    by_cases hn : v.isNull = false
    · rw [if_pos hn, if_pos hn]
    · rw [if_neg hn, if_neg hn, alGet?_alSet_ne _ _ _ _ hne]

/-- Witness for C3: B's null `summary` does not clobber A's
`summary = "foo"` in the merged record. -/
theorem merge_per_attribute_last_nonnull_wins_witness :
    ∃ r, format_opensearch_result [egA, egB] = .ok [("f1.nc", r)] ∧
      alGet? r "summary" = some (Val.str "foo") :=
  merge_per_attribute_last_nonnull_wins egA egB _ _ "f1.nc" rfl rfl (by decide)
    (by decide) "summary" (by decide) (by decide) Val.null rfl

end Opensearx

/-! ### Inversion lemmas for the normalizer fold -/

namespace Opensearx

theorem processEntry_get_ne {e e1 : Obj} {k : String}
    (h : processEntry e = .ok (k, e1)) {a : String}
    (ha1 : a ≠ "links") (ha2 : a ≠ "source") :
    alGet? e1 a = alGet? e a := by
  obtain ⟨t, ls, src, ht, hl, hs, hk, he1⟩ := processEntry_inv h
  rw [he1, alGet?_alPop_ne _ _ _ ha2, alGet?_alSet_ne _ _ _ _ ha1]

theorem mergeInto_ok_inv {stored e r : Obj} (h : mergeInto stored e = .ok r) :
    ∃ sl el, alGet? stored "links" = some (Val.arr sl) ∧
      alGet? e "links" = some (Val.arr el) ∧
      mergeLoop e (alKeys (alSet stored "links" (Val.arr (sl ++ el))))
        (alSet stored "links" (Val.arr (sl ++ el))) = .ok r := by
  unfold mergeInto at h
  cases h1 : alGet? stored "links" with
  | none => rw [h1] at h; simp at h
  | some v =>
    rw [h1] at h
    cases v with
    | null => simp at h
    | str s => simp at h
    | arr sl =>
      cases h2 : alGet? e "links" with
      | none => rw [h2] at h; simp at h
      | some w =>
        rw [h2] at h
        cases w with
        | null => simp at h
        | str s => simp at h
        | arr el => exact ⟨sl, el, rfl, rfl, h⟩

theorem insertStep_ok_inv {d d1 : List (String × Obj)} {e : Obj}
    (h : insertStep d e = .ok d1) :
    ∃ fid e1, processEntry e = .ok (fid, e1) ∧
      ((∃ stored r, alGet? d fid = some stored ∧ mergeInto stored e1 = .ok r ∧
          d1 = alSet d fid r) ∨
       (alGet? d fid = none ∧ d1 = d ++ [(fid, e1)])) := by
  cases hpe : processEntry e with
  | error m =>
    simp only [insertStep, hpe] at h
    exact absurd h (fun hx => Except.noConfusion hx)
  | ok p =>
    obtain ⟨fid, e1⟩ := p
    cases hf : alGet? d fid with
    | some stored =>
      cases hm : mergeInto stored e1 with
      | error m =>
        simp only [insertStep, hpe, hf, hm] at h
        exact absurd h (fun hx => Except.noConfusion hx)
      | ok r =>
        simp only [insertStep, hpe, hf, hm, Except.ok.injEq] at h
        exact ⟨fid, e1, rfl, Or.inl ⟨stored, r, hf, hm, h.symm⟩⟩
    | none =>
      simp only [insertStep, hpe, hf, Except.ok.injEq] at h
      exact ⟨fid, e1, rfl, Or.inr ⟨hf, h.symm⟩⟩

theorem fold_keys_nodup (es : List Obj) :
    ∀ d d2 : List (String × Obj), (alKeys d).Nodup →
      List.foldlM insertStep d es = .ok d2 → (alKeys d2).Nodup := by
  induction es with
  | nil =>
    intro d d2 hnd h
    simp only [List.foldlM_nil] at h
    injection h with h1
    rw [← h1]
    exact hnd
  | cons e rest ih =>
    intro d d2 hnd h
    rw [List.foldlM_cons] at h
    cases hstep : insertStep d e with
    | error m =>
      rw [hstep] at h
      exact absurd h (by exact fun hx => Except.noConfusion hx)
    | ok d1 =>
      rw [hstep] at h
      have h1 : List.foldlM insertStep d1 rest = .ok d2 := h
      obtain ⟨fid, e1, hpe, hcase⟩ := insertStep_ok_inv hstep
      rcases hcase with ⟨stored, r, hf, hm, hd1⟩ | ⟨hf, hd1⟩
      · have hmem : fid ∈ alKeys d := (alGet?_isSome_iff d fid).mp (by rw [hf]; rfl)
        refine ih d1 d2 ?_ h1
        rw [hd1, alKeys_alSet_of_mem _ _ _ hmem]
        exact hnd
      · have hnotmem : fid ∉ alKeys d := (alGet?_eq_none_iff d fid).mp hf
        refine ih d1 d2 ?_ h1
        rw [hd1, alKeys_append, List.nodup_append]
        refine ⟨hnd, List.nodup_singleton _, ?_⟩
        intro a ha hb
        rw [show alKeys [(fid, e1)] = [fid] from rfl, List.mem_singleton] at hb
        subst hb
        exact hnotmem ha

end Opensearx

/-! ### The stored title can differ from the mapping key -/

namespace Opensearx

/-- C10: when a later entry B shares a normalized identifier with the
stored record A but B's raw title `tb` lacks the `.nc` suffix, the
merged record's `title` attribute becomes `tb` while the mapping key is
`tb ++ ".nc"`, so the stored title differs from the key. -/
theorem merged_title_differs_from_key
    (A B a1 b1 : Obj) (k tb : String)
    (hA : processEntry A = .ok (k, a1))
    (hB : processEntry B = .ok (k, b1))
    (htb : alGet? B "title" = some (Val.str tb))
    (hbnc : strEndsWith tb ".nc" = false)
    (hnd : (alKeys a1).Nodup)
    (hcov : ∀ x ∈ alKeys a1, (alGet? b1 x).isSome = true)
    (htmem : "title" ∈ alKeys a1) :
    ∃ r, format_opensearch_result [A, B] = .ok [(k, r)] ∧
      k = tb ++ ".nc" ∧
      alGet? r "title" = some (Val.str tb) ∧
      tb ≠ k := by
  have hkey : k = tb ++ ".nc" := by
    obtain ⟨t2, ls2, src2, ht2, hl2, hs2, hk2, he12⟩ := processEntry_inv hB
    rw [htb] at ht2
    have : tb = t2 := by
      injection ht2 with h3
      injection h3
    rw [hk2, ← this, normId_of_not_nc hbnc]
  have hb1title : alGet? b1 "title" = some (Val.str tb) := by
    rw [processEntry_get_ne hB (by decide) (by decide), htb]
  obtain ⟨sl, hsl⟩ := processEntry_links hA
  obtain ⟨el, hel⟩ := processEntry_links hB
  have hlinksmem : "links" ∈ alKeys a1 :=
    (alGet?_isSome_iff a1 "links").mp (by rw [hsl]; rfl)
  have hkeys2 : alKeys (alSet a1 "links" (Val.arr (sl ++ el))) = alKeys a1 :=
    alKeys_alSet_of_mem _ _ _ hlinksmem
  have hcov2 : ∀ a ∈ alKeys (alSet a1 "links" (Val.arr (sl ++ el))),
      (alGet? b1 a).isSome = true := by
    intro a ha
    exact hcov a (hkeys2 ▸ ha)
  obtain ⟨r, hr⟩ := mergeLoop_ok b1 _ _ hcov2
  have hmerge : mergeInto a1 b1 = .ok r := by
    unfold mergeInto
    rw [hsl, hel]
    exact hr
  have hstep1 : insertStep [] A = .ok [(k, a1)] := by
    simp only [insertStep, hA, alGet?, List.nil_append]
  have hstep2 : insertStep [(k, a1)] B = .ok [(k, r)] := by
    simp only [insertStep, hB, hmerge,
      show alGet? [(k, a1)] k = some a1 from by simp [alGet?],
      show alSet [(k, a1)] k r = [(k, r)] from by simp [alSet]]
  have hfold : List.foldlM insertStep ([] : List (String × Obj)) [A, B] = .ok [(k, r)] := by
    rw [List.foldlM_cons, hstep1]
    show List.foldlM insertStep [(k, a1)] [B] = .ok [(k, r)]
    rw [List.foldlM_cons, hstep2]
    rfl
  refine ⟨r, ?_, hkey, ?_, ?_⟩
  · simp only [format_opensearch_result, hfold]
    rfl
  · have hget := mergeLoop_get_mem (hkeys2.symm ▸ hnd) hr (hkeys2.symm ▸ htmem)
      (by decide) hb1title
    rw [hget]
    rfl
  · intro he
    rw [hkey] at he
    have h2 := strEndsWith_append tb ".nc"
    rw [← he, hbnc] at h2
    exact Bool.noConfusion h2

/-- Witness for C10: titles `"f1.nc"` then `"f1"`. -/
theorem merged_title_differs_from_key_witness :
    ∃ r, format_opensearch_result [egEntry "f1.nc", egEntry "f1"] = .ok [("f1.nc", r)] ∧
      ("f1.nc" : String) = "f1" ++ ".nc" ∧
      alGet? r "title" = some (Val.str "f1") ∧
      ("f1" : String) ≠ "f1.nc" :=
  merged_title_differs_from_key (egEntry "f1.nc") (egEntry "f1") _ _ "f1.nc" "f1"
    rfl rfl rfl rfl (by decide) (by decide) (by decide)

end Opensearx

/-! ### Link accumulation -/

namespace Opensearx

/-- The normalized identifier an entry contributes to (if accepted). -/
def entryKey? (e : Obj) : Option String :=
  match processEntry e with
  | .ok (k, _) => some k
  | .error _ => none

/-- The tagged link list an entry contributes. -/
def taggedLinksOf (e : Obj) : List Obj :=
  match processEntry e with
  | .ok (_, e1) =>
    match alGet? e1 "links" with
    | some (Val.arr ls) => ls
    | _ => []
  | .error _ => []

/-- Concatenation, in accumulation order, of the tagged links of every
entry of `es` whose normalized identifier is `k`. -/
def contributedLinks (es : List Obj) (k : String) : List Obj :=
  match es with
  | [] => []
  | e :: rest =>
    (if entryKey? e = some k then taggedLinksOf e else []) ++ contributedLinks rest k

theorem contributedLinks_append (es : List Obj) (e : Obj) (k : String) :
    contributedLinks (es ++ [e]) k =
      contributedLinks es k ++ (if entryKey? e = some k then taggedLinksOf e else []) := by
  induction es with
  | nil => simp [contributedLinks]
  | cons x rest ih =>
    simp only [List.cons_append, contributedLinks, List.append_eq, ih, List.append_assoc]

/-- Invariant tying the accumulated dict to the processed prefix:
stored link lists are exactly the contributed links, and identifiers
not in the dict have no contribution. -/
def LinksInv (es : List Obj) (d : List (String × Obj)) : Prop :=
  (∀ k r, alGet? d k = some r →
    alGet? r "links" = some (Val.arr (contributedLinks es k))) ∧
  (∀ k, alGet? d k = none → contributedLinks es k = [])

theorem insertStep_links_inv {es : List Obj} {d d1 : List (String × Obj)} {e : Obj}
    (hinv : LinksInv es d) (hstep : insertStep d e = .ok d1) :
    LinksInv (es ++ [e]) d1 := by
  obtain ⟨fid, e1, hpe, hcase⟩ := insertStep_ok_inv hstep
  obtain ⟨el, hel⟩ := processEntry_links hpe
  have hkey : entryKey? e = some fid := by
    unfold entryKey?
    rw [hpe]
  have htag : taggedLinksOf e = el := by
    simp only [taggedLinksOf, hpe, hel]
  rcases hcase with ⟨stored, r, hf, hm, hd1⟩ | ⟨hf, hd1⟩
  · obtain ⟨sl, el2, hsl, hel2, hloop⟩ := mergeInto_ok_inv hm
    have hel2e : el2 = el := by
      rw [hel] at hel2
      injection hel2 with h3
      injection h3 with h4
      exact h4.symm
    rw [hel2e] at hloop
    have hstl : sl = contributedLinks es fid := by
      have := hinv.1 fid stored hf
      rw [hsl] at this
      injection this with h3
      injection h3
    have hrlinks : alGet? r "links" = some (Val.arr (contributedLinks es fid ++ el)) := by
      rw [mergeLoop_get_links hloop, alGet?_alSet_self, hstl]
    constructor
    · intro k2 r2 h2
      rw [hd1] at h2
      by_cases hk2 : k2 = fid
      · subst hk2
        rw [alGet?_alSet_self] at h2
        injection h2 with h3
        rw [← h3, hrlinks, contributedLinks_append, hkey, if_pos rfl, htag]
      · rw [alGet?_alSet_ne _ _ _ _ hk2] at h2
        rw [contributedLinks_append, hkey,
          if_neg (fun hx => hk2 (Option.some.injEq .. ▸ hx).symm), List.append_nil]
        exact hinv.1 k2 r2 h2
    · intro k2 h2
      rw [hd1] at h2
      by_cases hk2 : k2 = fid
      · subst hk2
        rw [alGet?_alSet_self] at h2
        exact Option.noConfusion h2
      · rw [alGet?_alSet_ne _ _ _ _ hk2] at h2
        rw [contributedLinks_append, hkey,
          if_neg (fun hx => hk2 (Option.some.injEq .. ▸ hx).symm), List.append_nil]
        exact hinv.2 k2 h2
  · constructor
    · intro k2 r2 h2
      rw [hd1] at h2
      cases hget : alGet? d k2 with
      | some w =>
        rw [alGet?_append_of_some hget] at h2
        injection h2 with h3
        have hk2 : k2 ≠ fid := by
          intro he
          subst he
          rw [hget] at hf
          exact Option.noConfusion hf
        rw [← h3, contributedLinks_append, hkey,
          if_neg (fun hx => hk2 (Option.some.injEq .. ▸ hx).symm), List.append_nil]
        exact hinv.1 k2 w hget
      | none =>
        rw [alGet?_append_of_none hget] at h2
        by_cases hk2 : fid = k2
        · subst hk2
          rw [show alGet? [(fid, e1)] fid = some e1 from by simp [alGet?]] at h2
          injection h2 with h3
          rw [← h3, contributedLinks_append, hkey, if_pos rfl, htag, hel,
            hinv.2 fid hget]
          rfl
        · simp only [alGet?, if_neg hk2] at h2
          exact Option.noConfusion h2
    · intro k2 h2
      rw [hd1] at h2
      cases hget : alGet? d k2 with
      | some w =>
        rw [alGet?_append_of_some hget] at h2
        exact Option.noConfusion h2
      | none =>
        rw [alGet?_append_of_none hget] at h2
        by_cases hk2 : fid = k2
        · subst hk2
          rw [show alGet? [(fid, e1)] fid = some e1 from by simp [alGet?]] at h2
          exact Option.noConfusion h2
        · rw [contributedLinks_append, hkey,
            if_neg (fun hx => hk2 (Option.some.injEq .. ▸ hx)), List.append_nil]
          exact hinv.2 k2 hget

theorem fold_links_inv (es2 : List Obj) :
    ∀ (es : List Obj) (d d2 : List (String × Obj)), LinksInv es d →
      List.foldlM insertStep d es2 = .ok d2 → LinksInv (es ++ es2) d2 := by
  induction es2 with
  | nil =>
    intro es d d2 hinv h
    simp only [List.foldlM_nil] at h
    injection h with h1
    rw [← h1, List.append_nil]
    exact hinv
  | cons e rest ih =>
    intro es d d2 hinv h
    rw [List.foldlM_cons] at h
    cases hstep : insertStep d e with
    | error m =>
      rw [hstep] at h
      exact absurd h (fun hx => Except.noConfusion hx)
    | ok d1 =>
      rw [hstep] at h
      have h1 : List.foldlM insertStep d1 rest = .ok d2 := h
      have hinv1 := insertStep_links_inv hinv hstep
      have := ih (es ++ [e]) d1 d2 hinv1 h1
      rw [List.append_assoc] at this
      exact this

end Opensearx

namespace Opensearx

/-- C5: for every identifier `k` in the output, the canonical record's
link list is exactly the concatenation of the tagged links of every
contributing raw entry in accumulation order (entry order, then link
order within each entry), with nothing dropped or deduplicated. -/
theorem links_concat_in_accumulation_order (es : List Obj) (out : List (String × Obj))
    (h : format_opensearch_result es = .ok out) (k : String) (r : Obj)
    (hmem : (k, r) ∈ out) :
    alGet? r "links" = some (Val.arr (contributedLinks es k)) := by
  unfold format_opensearch_result at h
  cases hfold : List.foldlM insertStep ([] : List (String × Obj)) es with
  | error m =>
    rw [hfold] at h
    exact absurd h (fun hx => Except.noConfusion hx)
  | ok d =>
    rw [hfold] at h
    have h2 : Except.ok (sortRecs d) = Except.ok out := h
    injection h2 with h1
    have hinv : LinksInv es d := by
      have h0 : LinksInv [] ([] : List (String × Obj)) :=
        ⟨fun k2 r2 hx => by simp [alGet?] at hx, fun k2 hx => rfl⟩
      have hall := fold_links_inv es [] [] d h0 hfold
      rw [List.nil_append] at hall
      exact hall
    have hnd : (alKeys d).Nodup := fold_keys_nodup es [] d (by simp [alKeys]) hfold
    rw [← h1] at hmem
    unfold sortRecs at hmem
    have hmem2 : (k, r) ∈ d := (List.perm_insertionSort _ d).mem_iff.mp hmem
    exact hinv.1 k r (mem_alGet? hnd hmem2)

/-- Witness for C5: two identical entries contribute two structurally
identical links, kept in order and not deduplicated. -/
theorem links_concat_in_accumulation_order_witness :
    alGet? [("title", Val.str "a.nc"),
            ("links", Val.arr [[("href", Val.str "u1"), ("source", Val.str "DAC1")],
                               [("href", Val.str "u1"), ("source", Val.str "DAC1")]])] "links" =
      some (Val.arr (contributedLinks [egEntry "a.nc", egEntry "a.nc"] "a.nc")) :=
  links_concat_in_accumulation_order [egEntry "a.nc", egEntry "a.nc"]
    [("a.nc", [("title", Val.str "a.nc"),
      ("links", Val.arr [[("href", Val.str "u1"), ("source", Val.str "DAC1")],
                         [("href", Val.str "u1"), ("source", Val.str "DAC1")]])])]
    rfl "a.nc"
    [("title", Val.str "a.nc"),
     ("links", Val.arr [[("href", Val.str "u1"), ("source", Val.str "DAC1")],
                        [("href", Val.str "u1"), ("source", Val.str "DAC1")]])]
    (List.mem_singleton.mpr rfl)

end Opensearx

/-! ### Output ordering -/

namespace Opensearx

theorem charListLe_total : ∀ as bs : List Char,
    charListLe as bs = true ∨ charListLe bs as = true
  | [], _ => Or.inl rfl
  | _ :: _, [] => Or.inr rfl
  | a :: as, b :: bs => by
    rcases lt_trichotomy a.toNat b.toNat with h | h | h
    · left
      simp [charListLe, h]
    · rcases charListLe_total as bs with h2 | h2
      · left
        simp [charListLe, h, lt_irrefl, h2]
      · right
        simp [charListLe, h.symm, lt_irrefl, h2]
    · right
      simp [charListLe, h]

theorem charListLe_trans : ∀ as bs cs : List Char,
    charListLe as bs = true → charListLe bs cs = true → charListLe as cs = true
  | [], _, _, _, _ => rfl
  | a :: as, [], cs, h1, _ => by simp [charListLe] at h1
  | a :: as, b :: bs, [], _, h2 => by simp [charListLe] at h2
  | a :: as, b :: bs, c :: cs, h1, h2 => by
    unfold charListLe at h1 h2 ⊢
    by_cases hab : a.toNat < b.toNat
    · by_cases hbc : b.toNat < c.toNat
      · simp [lt_trans hab hbc]
      · rw [if_neg hbc] at h2
        by_cases hcb : c.toNat < b.toNat
        · rw [if_pos hcb] at h2
          exact absurd h2 (by simp)
        · rw [if_neg hcb] at h2
          have hbceq : b.toNat = c.toNat := le_antisymm (not_lt.mp hcb) (not_lt.mp hbc)
          simp [hbceq ▸ hab]
    · rw [if_neg hab] at h1
      by_cases hba : b.toNat < a.toNat
      · rw [if_pos hba] at h1
        exact absurd h1 (by simp)
      · rw [if_neg hba] at h1
        have habeq : a.toNat = b.toNat := le_antisymm (not_lt.mp hba) (not_lt.mp hab)
        by_cases hbc : b.toNat < c.toNat
        · simp [habeq ▸ hbc]
        · rw [if_neg hbc] at h2
          by_cases hcb : c.toNat < b.toNat
          · rw [if_pos hcb] at h2
            exact absurd h2 (by simp)
          · rw [if_neg hcb] at h2
            rw [if_neg (habeq ▸ hbc), if_neg (habeq ▸ hcb)]
            exact charListLe_trans as bs cs h1 h2

theorem charListLe_lt_or_eq : ∀ as bs : List Char,
    charListLe as bs = true → charListLt as bs = true ∨ as = bs
  | [], [], _ => Or.inr rfl
  | [], _ :: _, _ => Or.inl rfl
  | _ :: _, [], h => by simp [charListLe] at h
  | a :: as, b :: bs, h => by
    unfold charListLe at h
    unfold charListLt
    by_cases hab : a.toNat < b.toNat
    · left
      rw [if_pos hab]
    · rw [if_neg hab] at h ⊢
      by_cases hba : b.toNat < a.toNat
      · rw [if_pos hba] at h
        exact absurd h (by simp)
      · rw [if_neg hba] at h ⊢
        rcases charListLe_lt_or_eq as bs h with h2 | h2
        · left
          exact h2
        · right
          have hc : a = b := Char.ext (UInt32.ext (le_antisymm (not_lt.mp hba) (not_lt.mp hab)))
          rw [h2, hc]

instance : IsTotal (String × Obj) (fun a b => strLe a.1 b.1 = true) :=
  ⟨fun a b => charListLe_total a.1.data b.1.data⟩

instance : IsTrans (String × Obj) (fun a b => strLe a.1 b.1 = true) :=
  ⟨fun a b c => charListLe_trans a.1.data b.1.data c.1.data⟩

end Opensearx

namespace Opensearx

/-- C8: the output mapping is ordered by normalized identifier in
ascending codepoint-lexicographic order (first conjunct, for every
input accepted by the normalizer), regardless of accumulation order;
concretely, input identifiers `b.nc, a.nc, c.nc` come out in the order
`a.nc, b.nc, c.nc` (second conjunct). -/
theorem output_keys_sorted_ascending :
    (∀ (es : List Obj) (out : List (String × Obj)),
      format_opensearch_result es = .ok out →
      List.Pairwise (fun p q : String × Obj => strLt p.1 q.1 = true) out)
    ∧ (format_opensearch_result [egEntry "b.nc", egEntry "a.nc", egEntry "c.nc"]).map alKeys
        = Except.ok ["a.nc", "b.nc", "c.nc"] := by
  constructor
  · intro es out h
    unfold format_opensearch_result at h
    cases hfold : List.foldlM insertStep ([] : List (String × Obj)) es with
    | error m =>
      rw [hfold] at h
      exact absurd h (fun hx => Except.noConfusion hx)
    | ok d =>
      rw [hfold] at h
      have h2 : Except.ok (sortRecs d) = Except.ok out := h
      injection h2 with h1
      have hnd : (alKeys d).Nodup := fold_keys_nodup es [] d (by simp [alKeys]) hfold
      have hsorted : List.Pairwise (fun p q : String × Obj => strLe p.1 q.1 = true) out := by
        rw [← h1]
        exact List.sorted_insertionSort _ d
      have hndout : (List.map Prod.fst out).Nodup := by
        have hperm := List.perm_insertionSort (fun a b : String × Obj => strLe a.1 b.1 = true) d
        rw [← h1]
        exact ((hperm.map Prod.fst).nodup_iff).mpr hnd
      have hpairne : List.Pairwise (fun p q : String × Obj => p.1 ≠ q.1) out :=
        List.pairwise_map.mp hndout
      refine (hsorted.and hpairne).imp ?_
      rintro a b ⟨hle, hne⟩
      rcases charListLe_lt_or_eq _ _ hle with h3 | h3
      · exact h3
      · exact absurd (String.ext h3) hne
  · rfl

/-- Witness for C8 at the `b.nc, a.nc, c.nc` input. -/
theorem output_keys_sorted_ascending_witness :
    List.Pairwise (fun p q : String × Obj => strLt p.1 q.1 = true)
      [("a.nc", [("title", Val.str "a.nc"),
         ("links", Val.arr [[("href", Val.str "u1"), ("source", Val.str "DAC1")]])]),
       ("b.nc", [("title", Val.str "b.nc"),
         ("links", Val.arr [[("href", Val.str "u1"), ("source", Val.str "DAC1")]])]),
       ("c.nc", [("title", Val.str "c.nc"),
         ("links", Val.arr [[("href", Val.str "u1"), ("source", Val.str "DAC1")]])])] :=
  output_keys_sorted_ascending.1 [egEntry "b.nc", egEntry "a.nc", egEntry "c.nc"] _ rfl

end Opensearx

/-! ### Repeated entries: merge is not idempotent -/

namespace Opensearx

/-- The number of links of the first record of a normalizer result. -/
def firstRecLinkCount (x : Except String (List (String × Obj))) : Nat :=
  match x with
  | .ok ((_, r) :: _) =>
    match alGet? r "links" with
    | some (Val.arr ls) => ls.length
    | _ => 0
  | _ => 0

/-- C9 (refuted by the code): normalizing is not idempotent over
repeated identical entries — processing the same entry twice appends
its links twice, so re-normalizing an equivalent re-expansion cannot
reproduce the records of the single normalization. -/
theorem normalize_repeat_not_idempotent_cex :
    format_opensearch_result [egEntry "a.nc", egEntry "a.nc"] ≠
      format_opensearch_result [egEntry "a.nc"] := by
  intro h
  have h2 := congrArg firstRecLinkCount h
  rw [show firstRecLinkCount (format_opensearch_result [egEntry "a.nc", egEntry "a.nc"]) = 2
        from rfl,
      show firstRecLinkCount (format_opensearch_result [egEntry "a.nc"]) = 1 from rfl] at h2
  exact absurd h2 (by decide)

/-- C9 (amended): merging an entry whose non-link attributes agree with
the stored record (the repeated-identical-entry case) changes only the
link list, which is extended by the entry's links again; every other
attribute keeps its stored value. -/
theorem merge_repeat_changes_only_links
    (stored e1 r : Obj) (sl el : List (List (String × Val)))
    (hnd : (alKeys stored).Nodup)
    (hsl : alGet? stored "links" = some (Val.arr sl))
    (hel : alGet? e1 "links" = some (Val.arr el))
    (hagree : ∀ x ∈ alKeys stored, x ≠ "links" → alGet? e1 x = alGet? stored x)
    (hm : mergeInto stored e1 = .ok r) :
    alGet? r "links" = some (Val.arr (sl ++ el)) ∧
    ∀ x, x ≠ "links" → alGet? r x = alGet? stored x := by
  obtain ⟨sl2, el2, hsl2, hel2, hloop⟩ := mergeInto_ok_inv hm
  have hsleq : sl2 = sl := by
    rw [hsl] at hsl2
    injection hsl2 with h3
    injection h3 with h4
    exact h4.symm
  have heleq : el2 = el := by
    rw [hel] at hel2
    injection hel2 with h3
    injection h3 with h4
    exact h4.symm
  rw [hsleq, heleq] at hloop
  have hlinksmem : "links" ∈ alKeys stored :=
    (alGet?_isSome_iff stored "links").mp (by rw [hsl]; rfl)
  have hkeys2 : alKeys (alSet stored "links" (Val.arr (sl ++ el))) = alKeys stored :=
    alKeys_alSet_of_mem _ _ _ hlinksmem
  constructor
  · rw [mergeLoop_get_links hloop, alGet?_alSet_self]
  · intro x hx
    by_cases hmem : x ∈ alKeys stored
    · obtain ⟨w, hw⟩ := Option.isSome_iff_exists.mp ((alGet?_isSome_iff stored x).mpr hmem)
      have hvx : alGet? e1 x = some w := by
        rw [hagree x hmem hx, hw]
      have hget := mergeLoop_get_mem (hkeys2.symm ▸ hnd) hloop (hkeys2.symm ▸ hmem) hx hvx
      rw [hget, hw]
      by_cases hwn : w.isNull = false
      · rw [if_pos hwn]
      · rw [if_neg hwn, alGet?_alSet_ne _ _ _ _ hx, hw]
    · have hget := mergeLoop_get_not_mem hloop (hkeys2.symm ▸ hmem)
      rw [hget, alGet?_alSet_ne _ _ _ _ hx]

/-- Witness for the amended C9: merging the record of `egEntry "a.nc"`
with itself doubles the link list and keeps the title. -/
theorem merge_repeat_changes_only_links_witness :
    alGet? [("title", Val.str "a.nc"),
            ("links", Val.arr [[("href", Val.str "u1"), ("source", Val.str "DAC1")],
                               [("href", Val.str "u1"), ("source", Val.str "DAC1")]])] "links" =
      some (Val.arr ([[("href", Val.str "u1"), ("source", Val.str "DAC1")]] ++
                     [[("href", Val.str "u1"), ("source", Val.str "DAC1")]])) ∧
    alGet? [("title", Val.str "a.nc"),
            ("links", Val.arr [[("href", Val.str "u1"), ("source", Val.str "DAC1")],
                               [("href", Val.str "u1"), ("source", Val.str "DAC1")]])] "title" =
      alGet? [("title", Val.str "a.nc"),
              ("links", Val.arr [[("href", Val.str "u1"), ("source", Val.str "DAC1")]])] "title" :=
  ⟨(merge_repeat_changes_only_links
      [("title", Val.str "a.nc"),
       ("links", Val.arr [[("href", Val.str "u1"), ("source", Val.str "DAC1")]])]
      [("title", Val.str "a.nc"),
       ("links", Val.arr [[("href", Val.str "u1"), ("source", Val.str "DAC1")]])]
      [("title", Val.str "a.nc"),
       ("links", Val.arr [[("href", Val.str "u1"), ("source", Val.str "DAC1")],
                          [("href", Val.str "u1"), ("source", Val.str "DAC1")]])]
      [[("href", Val.str "u1"), ("source", Val.str "DAC1")]]
      [[("href", Val.str "u1"), ("source", Val.str "DAC1")]]
      (by decide) rfl rfl (fun x hx hne => rfl) rfl).1,
   (merge_repeat_changes_only_links
      [("title", Val.str "a.nc"),
       ("links", Val.arr [[("href", Val.str "u1"), ("source", Val.str "DAC1")]])]
      [("title", Val.str "a.nc"),
       ("links", Val.arr [[("href", Val.str "u1"), ("source", Val.str "DAC1")]])]
      [("title", Val.str "a.nc"),
       ("links", Val.arr [[("href", Val.str "u1"), ("source", Val.str "DAC1")],
                          [("href", Val.str "u1"), ("source", Val.str "DAC1")]])]
      [[("href", Val.str "u1"), ("source", Val.str "DAC1")]]
      [[("href", Val.str "u1"), ("source", Val.str "DAC1")]]
      (by decide) rfl rfl (fun x hx hne => rfl) rfl).2 "title" (by decide)⟩

end Opensearx
